import Mathlib

/-!
# cryptfile: passphrase-protected record file (`pkg/cryptfile/file.go`)

A shallow embedding of the three functions of the package, `key`, `Write` and
`Read`, together with the library behaviour they rely on:

* Go values: a `[]byte` is a `List Byte`, a nil slice or nil error is `none`,
  a call either returns or panics (`Outcome`).
* The cryptographic primitives (MD5, scrypt, AES-GCM) are a parameter
  (`Crypto`); the parameter checks that the Go wrappers perform around them
  (`scrypt.Key`, `aes.NewCipher`, `cipher.NewGCM`, `Seal`, `Open`) are written
  out.
* `bufio.Scanner` with its default `ScanLines` split function and its default
  64 KiB buffer limit is the function `scanLines`.
* The operating system is a map from paths to file contents (`FS`) and a
  record of the failures the system calls report (`Env`).  A failed operation
  of package os returns a `*PathError`, whose text names the operation
  (`open`, `read`, `write`, `chmod`, `close`), the path and the cause.
  Permission bits are not part of the state: `f.Chmod` does not touch the
  contents and the code discards its result.
* `demoCrypto` is an instance of the primitives that can be evaluated; the
  theorems hold for every instance and are evaluated at this one.
-/

namespace Cryptfile

/-! ## Go values -/

/-- One element of a Go `[]byte`. -/
abbrev Byte := UInt8

/-- A Go `error`, identified by the text of its `Error()` method. -/
structure GoError where
  msg : String
deriving DecidableEq, Repr

/-- The ways a Go call ends: it returns its results, or it panics. -/
inductive Outcome (α : Type) where
  | ret (a : α)
  | panic (msg : String)
deriving DecidableEq, Repr

instance {ε α : Type} [DecidableEq ε] [DecidableEq α] : DecidableEq (Except ε α) :=
  fun a b =>
    match a, b with
    | .ok x, .ok y => if h : x = y then isTrue (by rw [h]) else isFalse (fun h2 => h (by cases h2; rfl))
    | .error x, .error y =>
      if h : x = y then isTrue (by rw [h]) else isFalse (fun h2 => h (by cases h2; rfl))
    | .ok _, .error _ => isFalse (fun h => by cases h)
    | .error _, .ok _ => isFalse (fun h => by cases h)

/-- The line feed byte, `'\n'`. -/
def LF : Byte := 10

/-- The carriage return byte, `'\r'`. -/
def CR : Byte := 13

/-! ## Cryptographic primitives -/

/-- The primitives behind `crypto/md5`, `golang.org/x/crypto/scrypt` and AES-GCM
(`crypto/aes` with `crypto/cipher`).  Only their sizes are fixed here: scrypt
returns `keyLen` bytes and sealing adds the 16-byte tag. -/
structure Crypto where
  md5Sum : List Byte → List Byte
  scrypt : (password salt : List Byte) → (N r p keyLen : Nat) → List Byte
  gcmSeal : (key nonce plaintext additionalData : List Byte) → List Byte
  gcmOpen : (key nonce ciphertext additionalData : List Byte) → Option (List Byte)
  scrypt_length : ∀ password salt N r p keyLen,
    (scrypt password salt N r p keyLen).length = keyLen
  gcmSeal_length : ∀ key nonce plaintext additionalData,
    (gcmSeal key nonce plaintext additionalData).length = plaintext.length + 16

/-- Opening what was sealed under the same key, nonce and additional data gives
back the plaintext. -/
def OpenInvertsSeal (c : Crypto) : Prop :=
  ∀ key nonce plaintext additionalData,
    c.gcmOpen key nonce (c.gcmSeal key nonce plaintext additionalData) additionalData
      = some plaintext

/-- What `Open` returns is the ciphertext without its 16-byte tag, as long as
the plaintext that was sealed. -/
def OpenRemovesTag (c : Crypto) : Prop :=
  ∀ key nonce ciphertext additionalData plaintext,
    c.gcmOpen key nonce ciphertext additionalData = some plaintext →
      ciphertext.length = plaintext.length + 16

/-- Largest value of Go's `int` (64-bit platforms). -/
def maxInt : Nat := 2 ^ 63 - 1

/-- `scrypt.Key`: rejects unusable cost parameters, otherwise derives `keyLen`
bytes (for `r`, `p` positive). -/
def scryptKey (c : Crypto) (password salt : List Byte) (N r p keyLen : Nat) :
    Except GoError (List Byte) :=
  if N ≤ 1 ∨ N &&& (N - 1) ≠ 0 then
    .error ⟨"scrypt: N must be > 1 and a power of 2"⟩
  else if r * p ≥ 2 ^ 30 ∨ r > maxInt / 128 / p ∨ r > maxInt / 256 ∨ N > maxInt / 128 / r then
    .error ⟨"scrypt: parameters are too large"⟩
  else
    .ok (c.scrypt password salt N r p keyLen)

/-- An AES block cipher, as returned by `aes.NewCipher`. -/
structure AESBlock where
  key : List Byte
deriving DecidableEq, Repr

/-- `aes.NewCipher`: the key must have 16, 24 or 32 bytes. -/
def aesNewCipher (key : List Byte) : Except GoError AESBlock :=
  if key.length = 16 ∨ key.length = 24 ∨ key.length = 32 then
    .ok ⟨key⟩
  else
    .error ⟨"crypto/aes: invalid key size " ++ toString key.length⟩

/-- The AEAD returned by `cipher.NewGCM`. -/
structure GCM where
  key : List Byte
deriving DecidableEq, Repr

/-- `cipher.NewGCM`: fails only for a block size other than 16, which AES never has. -/
def cipherNewGCM (block : AESBlock) : Except GoError GCM :=
  .ok ⟨block.key⟩

/-- `gcm.NonceSize()`: the standard GCM nonce size. -/
def GCM.NonceSize (_g : GCM) : Nat := 12

/-- `gcm.Overhead()`: the size of the authentication tag. -/
def GCM.Overhead (_g : GCM) : Nat := 16

/-- The error of a failed `gcm.Open`. -/
def errOpen : GoError := ⟨"cipher: message authentication failed"⟩

/-- `gcm.Seal(nil, nonce, plaintext, additionalData)`. -/
def GCM.Seal (c : Crypto) (g : GCM) (nonce plaintext additionalData : List Byte) :
    Outcome (List Byte) :=
  if nonce.length ≠ g.NonceSize then
    .panic "crypto/cipher: incorrect nonce length given to GCM"
  else if plaintext.length > (2 ^ 32 - 2) * 16 then
    .panic "crypto/cipher: message too large for GCM"
  else
    .ret (c.gcmSeal g.key nonce plaintext additionalData)

/-- `gcm.Open(nil, nonce, ciphertext, additionalData)`. -/
def GCM.Open (c : Crypto) (g : GCM) (nonce ciphertext additionalData : List Byte) :
    Outcome (Except GoError (List Byte)) :=
  if nonce.length ≠ g.NonceSize then
    .panic "crypto/cipher: incorrect nonce length given to GCM"
  else if ciphertext.length < g.Overhead then
    .ret (.error errOpen)
  else if ciphertext.length > (2 ^ 32 - 2) * 16 + g.Overhead then
    .ret (.error errOpen)
  else
    match c.gcmOpen g.key nonce ciphertext additionalData with
    | none => .ret (.error errOpen)
    | some plaintext => .ret (.ok plaintext)

/-! ## `bufio.Scanner` with `ScanLines` -/

/-- `bufio.MaxScanTokenSize`, the default limit of the scanner's buffer. -/
def maxScanTokenSize : Nat := 64 * 1024

/-- `bufio.ErrTooLong`. -/
def errTooLong : GoError := ⟨"bufio.Scanner: token too long"⟩

/-- `dropCR` of package bufio: drops one terminal `'\r'`. -/
def dropCR (data : List Byte) : List Byte :=
  if data.getLast? = some CR then data.dropLast else data

/-- The tokens that successive calls of `Scan` deliver and the final value of
`Err()`, for a reader that still holds `input` while `pending` is the part of
the current line already in the buffer.  `srcErr` is the error with which the
reader ends (`none` for `io.EOF`).  A line ends at `'\n'`; what is left at the
end of the input is a last line; a buffer of `maxScanTokenSize` bytes without
a line end stops the scan with `ErrTooLong`. -/
def scanFrom (srcErr : Option GoError) :
    (input pending : List Byte) → List (List Byte) × Option GoError
  | [], pending => (if pending = [] then [] else [dropCR pending], srcErr)
  | b :: rest, pending =>
    if b = LF then
      (dropCR pending :: (scanFrom srcErr rest []).1, (scanFrom srcErr rest []).2)
    else if pending.length + 1 ≥ maxScanTokenSize then
      ([], some errTooLong)
    else
      scanFrom srcErr rest (pending ++ [b])

/-- A `bufio.NewScanner` over a reader that delivers `input` and then ends with
`srcErr`: the lines it scans and its final `Err()`. -/
def scanLines (input : List Byte) (srcErr : Option GoError) :
    List (List Byte) × Option GoError :=
  scanFrom srcErr input []

/-! ## Operating system -/

/-- The contents of the regular files, by path. -/
abbrev FS := String → Option (List Byte)

/-- The file system with the contents of `path` replaced. -/
def FS.put (fs : FS) (path : String) (data : List Byte) : FS :=
  fun p => if p = path then some data else fs p

/-- The file system without any file. -/
def FS.empty : FS := fun _ => none

/-- The contents of `path`, empty when there is no such file. -/
def FS.contents (fs : FS) (path : String) : List Byte :=
  (fs path).getD []

/-- What the world outside the file contents does during one call: the bytes
`crypto/rand` delivers, the failure of the random source, and for each system
call on the file the cause of its failure, if it fails (the error of the
underlying system call, such as "permission denied" or "no space left on
device").  A failing write reports how many bytes reached the file. -/
structure Env where
  rand : Nat → Byte
  randErr : Option GoError
  openErr : Option GoError
  chmodErr : Option GoError
  readErr : Option GoError
  writeErr : Option (Nat × GoError)
  closeErr : Option GoError

/-- An environment in which nothing fails. -/
def Env.quiet (rand : Nat → Byte) : Env :=
  ⟨rand, none, none, none, none, none, none⟩

/-- The error value of package os for a failed operation on a file,
`&PathError{Op: op, Path: path, Err: cause}`; its text is
`op + " " + path + ": " + cause.Error()`. -/
def pathError (op path : String) (cause : GoError) : GoError :=
  ⟨op ++ " " ++ path ++ ": " ++ cause.msg⟩

/-- `io.ReadFull(rand.Reader, buf)` for a buffer of `n` bytes. -/
def randRead (env : Env) (n : Nat) : Except GoError (List Byte) :=
  match env.randErr with
  | some err => .error err
  | none => .ok ((List.range n).map env.rand)

/-- `os.Open(path)`: the contents the returned file will deliver. -/
def osOpen (env : Env) (fs : FS) (path : String) : Except GoError (List Byte) :=
  match env.openErr with
  | some cause => .error (pathError "open" path cause)
  | none =>
    match fs path with
    | none => .error (pathError "open" path ⟨"no such file or directory"⟩)
    | some data => .ok data

/-- The error with which reading the file opened by `os.Open` ends, `none` for
the end of the file. -/
def fileReadErr (env : Env) (path : String) : Option GoError :=
  env.readErr.map (pathError "read" path)

/-- `os.OpenFile(path, os.O_CREATE|os.O_RDWR|os.O_APPEND, 0o600)`: the file
system afterwards, in which the file exists. -/
def osOpenFileAppend (env : Env) (fs : FS) (path : String) : Except GoError FS :=
  match env.openErr with
  | some cause => .error (pathError "open" path cause)
  | none =>
    match fs path with
    | none => .ok (fs.put path [])
    | some _ => .ok fs

/-- `f.Chmod(0o600)`: its error.  The mode bits are not part of `FS`. -/
def fileChmod (env : Env) (path : String) : Option GoError :=
  env.chmodErr.map (pathError "chmod" path)

/-- `f.Write(b)` on a file opened with `O_APPEND`: the error, if any, and the
file system afterwards. -/
def fileWrite (env : Env) (fs : FS) (path : String) (b : List Byte) : Option GoError × FS :=
  match env.writeErr with
  | some (n, cause) =>
    (some (pathError "write" path cause), fs.put path (fs.contents path ++ b.take n))
  | none => (none, fs.put path (fs.contents path ++ b))

/-- `f.Close()`. -/
def fileClose (env : Env) (path : String) : Option GoError :=
  env.closeErr.map (pathError "close" path)

/-- `fmt.Errorf(prefix + ": %v", err)`. -/
def errorf (pfx : String) (err : GoError) : GoError :=
  ⟨pfx ++ ": " ++ err.msg⟩

/-! ## The package -/

/-- `key(passphrase)`. -/
def key (c : Crypto) (passphrase : List Byte) : Except GoError (List Byte) :=
  let hash := c.md5Sum passphrase
  match scryptKey c passphrase hash 32768 8 1 32 with
  | .error err => .error err
  | .ok key => .ok key

/-- The body of `for sc.Scan() { ... }` in `Read`, run over the lines the
scanner delivers, followed by the check of `sc.Err()`.  `data[:nonceSize]` is
bounded by the capacity of `data` and `data[nonceSize:]` by its length, so a
line shorter than the nonce makes one of the two slice expressions panic. -/
def readLoop (c : Crypto) (gcm : GCM) (scErr : Option GoError) :
    (lines : List (List Byte)) → (bytes : List Byte) →
      Outcome (Option (List Byte) × Option GoError)
  | [], bytes =>
    match scErr with
    | some err => .ret (none, some err)
    | none => .ret (some bytes, none)
  | data :: more, bytes =>
    let nonceSize := gcm.NonceSize
    if data.length < nonceSize then
      .panic "runtime error: slice bounds out of range"
    else
      let nonce := data.take nonceSize
      let ciphertext := data.drop nonceSize
      match gcm.Open c nonce ciphertext [] with
      | .panic msg => .panic msg
      | .ret (.error err) => .ret (none, some err)
      | .ret (.ok plaintext) => readLoop c gcm scErr more (bytes ++ plaintext ++ [LF])

/-- `Read(path, passphrase)`: the returned slice and error.  The deferred
`file.Close()` does not change either. -/
def Read (c : Crypto) (env : Env) (fs : FS) (path : String) (passphrase : List Byte) :
    Outcome (Option (List Byte) × Option GoError) :=
  match osOpen env fs path with
  | .error err => .ret (none, some err)
  | .ok file =>
    match key c passphrase with
    | .error err => .ret (none, some err)
    | .ok k =>
      match aesNewCipher k with
      | .error err => .ret (none, some err)
      | .ok block =>
        match cipherNewGCM block with
        | .error err => .ret (none, some err)
        | .ok gcm =>
          let sc := scanLines file (fileReadErr env path)
          readLoop c gcm sc.2 sc.1 []

/-- `Write(path, passphrase, contents)`: the returned error and the file system
afterwards.  The result of `f.Chmod` is discarded, as in the source. -/
def Write (c : Crypto) (env : Env) (fs : FS) (path : String) (passphrase contents : List Byte) :
    Outcome (Option GoError × FS) :=
  match key c passphrase with
  | .error err => .ret (some err, fs)
  | .ok k =>
    match aesNewCipher k with
    | .error err => .ret (some err, fs)
    | .ok block =>
      match cipherNewGCM block with
      | .error err => .ret (some err, fs)
      | .ok gcm =>
        match randRead env gcm.NonceSize with
        | .error err => .ret (some err, fs)
        | .ok nonce =>
          match gcm.Seal c nonce contents [] with
          | .panic msg => .panic msg
          | .ret sealed =>
            let ciphertext := nonce ++ sealed
            match osOpenFileAppend env fs path with
            | .error err => .ret (some (errorf "opening keychain" err), fs)
            | .ok fs1 =>
              let _ := fileChmod env path
              match fileWrite env fs1 path ciphertext with
              | (some err, fs2) => .ret (some (errorf "adding key" err), fs2)
              | (none, fs2) =>
                match fileClose env path with
                | some err => .ret (some (errorf "adding key" err), fs2)
                | none => .ret (none, fs2)

/-! ## A small executable instance of the primitives -/

/-- The exclusive or of all bytes of a list. -/
def xorAll (bs : List Byte) : Byte :=
  bs.foldl (fun a b => a ^^^ b) 0

/-- Sixteen copies of a check byte over key, nonce, body and additional data. -/
def demoTag (key nonce body additionalData : List Byte) : List Byte :=
  List.replicate 16 (xorAll (key ++ nonce ++ body ++ additionalData))

/-- Masks every byte with the check byte of key and nonce and appends the tag. -/
def demoSeal (key nonce plaintext additionalData : List Byte) : List Byte :=
  let body := plaintext.map (fun b => b ^^^ xorAll (key ++ nonce))
  body ++ demoTag key nonce body additionalData

/-- Checks the tag and removes the mask. -/
def demoOpen (key nonce ciphertext additionalData : List Byte) : Option (List Byte) :=
  let body := ciphertext.take (ciphertext.length - 16)
  let tag := ciphertext.drop (ciphertext.length - 16)
  if tag = demoTag key nonce body additionalData then
    some (body.map (fun b => b ^^^ xorAll (key ++ nonce)))
  else
    none

/-- An instance of `Crypto` small enough to evaluate: the digest repeats the
check byte of its input, the key is the passphrase and salt cut or padded to
`keyLen` bytes, and the cipher is `demoSeal` with `demoOpen`. -/
def demoCrypto : Crypto where
  md5Sum := fun data => List.replicate 16 (xorAll data)
  scrypt := fun password salt _ _ _ keyLen =>
    (password ++ salt).take keyLen ++ List.replicate (keyLen - (password ++ salt).length) 0
  gcmSeal := demoSeal
  gcmOpen := demoOpen
  scrypt_length := by
    intro password salt _ _ _ keyLen
    simp only [List.length_append, List.length_take, List.length_replicate]
    omega
  gcmSeal_length := by
    intro key nonce plaintext additionalData
    simp [demoSeal, demoTag]

/-! ## Vocabulary of the statements -/

/-- The key that `key` derives: scrypt of the passphrase, salted with its digest. -/
def derivedKey (c : Crypto) (passphrase : List Byte) : List Byte :=
  c.scrypt passphrase (c.md5Sum passphrase) 32768 8 1 32

/-- The nonce `Write` fills from the random source `rand`. -/
def freshNonce (rand : Nat → Byte) : List Byte :=
  (List.range 12).map rand

/-- The bytes `Write` sends to the file: the nonce, then the sealed contents
with no additional data. -/
def record (c : Crypto) (k nonce contents : List Byte) : List Byte :=
  nonce ++ c.gcmSeal k nonce contents []

/-- A byte sequence that the line scanner delivers whole as one line: no line
feed in it, no carriage return at its end, shorter than the buffer limit. -/
def SingleLine (data : List Byte) : Prop :=
  LF ∉ data ∧ data.getLast? ≠ some CR ∧ data.length < maxScanTokenSize

instance (data : List Byte) : Decidable (SingleLine data) := by
  unfold SingleLine
  infer_instance

/-- The plaintexts of the records, each followed by a line feed, in order. -/
def reassemble : List (List Byte) → List Byte
  | [] => []
  | p :: ps => p ++ [LF] ++ reassemble ps

/-- Line `l` opens under key `k` to plaintext `p`: the nonce is the first 12
bytes of the line, the rest is the ciphertext with its tag. -/
def OpensTo (c : Crypto) (k l p : List Byte) : Prop :=
  GCM.Open c ⟨k⟩ (l.take 12) (l.drop 12) [] = .ret (.ok p)

instance (c : Crypto) (k l p : List Byte) : Decidable (OpensTo c k l p) := by
  unfold OpensTo
  infer_instance

/-! ## Concrete inputs -/

/-- A random source that delivers the letters `A`, `B`, `C`, ... -/
def demoRand : Nat → Byte := fun i => (65 + i).toUInt8

/-- A random source that delivers the letters `a`, `b`, `c`, ... -/
def demoRand2 : Nat → Byte := fun i => (97 + i).toUInt8

/-- A random source that delivers 0, 1, 2, ...: its eleventh byte is a line feed. -/
def countingRand : Nat → Byte := fun i => i.toUInt8

/-- A random source that delivers line feeds only. -/
def lineFeedRand : Nat → Byte := fun _ => LF

/-- The passphrase `a`. -/
def passA : List Byte := [97]

/-- The passphrase `b`. -/
def passB : List Byte := [98]

/-- The contents `hi`. -/
def hi : List Byte := [104, 105]

/-- The contents `yo`. -/
def yo : List Byte := [121, 111]

/-- The record of `hi` under `demoCrypto`, passphrase `a` and the nonce of `demoRand`. -/
def hiRecord : List Byte :=
  [65, 66, 67, 68, 69, 70, 71, 72, 73, 74, 75, 76, 5, 4, 108, 108, 108, 108, 108, 108, 108, 108,
    108, 108, 108, 108, 108, 108, 108, 108]

/-- The record of `yo` under `demoCrypto`, passphrase `a` and the nonce of `demoRand2`. -/
def yoRecord : List Byte :=
  [97, 98, 99, 100, 101, 102, 103, 104, 105, 106, 107, 108, 20, 2, 123, 123, 123, 123, 123, 123,
    123, 123, 123, 123, 123, 123, 123, 123, 123, 123]

/-- An environment in which only `f.Chmod` fails. -/
def chmodFailing : Env :=
  ⟨demoRand, none, none, some ⟨"operation not permitted"⟩, none, none, none⟩

/-- An environment in which only `f.Write` fails, after 5 bytes. -/
def writeFailing : Env :=
  ⟨demoRand, none, none, none, none, some (5, ⟨"no space left on device"⟩), none⟩

/-- A file system whose only file is `keychain`, with the given contents. -/
def keychainOnly (data : List Byte) : FS :=
  FS.empty.put "keychain" data

/-! ## Facts about the library layer -/

theorem scryptKey_fixed (c : Crypto) (password salt : List Byte) :
    scryptKey c password salt 32768 8 1 32 = .ok (c.scrypt password salt 32768 8 1 32) := by
  have h1 : ¬ ((32768 : Nat) ≤ 1 ∨ (32768 : Nat) &&& (32768 - 1) ≠ 0) := by decide
  have h2 : ¬ ((8 : Nat) * 1 ≥ 2 ^ 30 ∨ 8 > maxInt / 128 / 1 ∨ 8 > maxInt / 256
      ∨ 32768 > maxInt / 128 / 8) := by decide
  unfold scryptKey
  rw [if_neg h1, if_neg h2]

theorem key_eq (c : Crypto) (passphrase : List Byte) :
    key c passphrase = .ok (derivedKey c passphrase) := by
  simp [key, derivedKey, scryptKey_fixed]

theorem derivedKey_length (c : Crypto) (passphrase : List Byte) :
    (derivedKey c passphrase).length = 32 :=
  c.scrypt_length _ _ _ _ _ _

theorem aesNewCipher_derivedKey (c : Crypto) (passphrase : List Byte) :
    aesNewCipher (derivedKey c passphrase) = .ok ⟨derivedKey c passphrase⟩ := by
  simp [aesNewCipher, derivedKey_length]

theorem key_ok_iff (c : Crypto) (passphrase k : List Byte) :
    key c passphrase = .ok k ↔ k = derivedKey c passphrase := by
  rw [key_eq]
  constructor
  · intro h
    injection h with h
    exact h.symm
  · intro h
    rw [h]

theorem Read_of_open (c : Crypto) (env : Env) (fs : FS) (path : String)
    (passphrase file : List Byte) (hopen : osOpen env fs path = .ok file) :
    Read c env fs path passphrase
      = readLoop c ⟨derivedKey c passphrase⟩ (scanLines file (fileReadErr env path)).2
          (scanLines file (fileReadErr env path)).1 [] := by
  simp [Read, hopen, key_eq, aesNewCipher_derivedKey, cipherNewGCM]

theorem errorf_open_ne (e e' : GoError) :
    errorf "opening keychain" e ≠ errorf "adding key" e' := by
  intro h
  have h2 := congrArg (fun x => x.msg.data.head?) h
  simp [errorf, String.data_append] at h2

theorem errorf_write_ne_close (path : String) (e e' : GoError) :
    errorf "adding key" (pathError "write" path e)
      ≠ errorf "adding key" (pathError "close" path e') := by
  intro h
  have h2 := congrArg (fun x => (x.msg.data.drop 12).head?) h
  simp [errorf, pathError, String.data_append] at h2

/-! ## The scanner -/

theorem dropCR_of_getLast (data : List Byte) (h : data.getLast? ≠ some CR) :
    dropCR data = data := by
  simp [dropCR, h]

theorem dropCR_length_le (data : List Byte) : (dropCR data).length ≤ data.length := by
  unfold dropCR
  split
  · simp
  · exact Nat.le_refl _

theorem dropCR_length_of_CR (data : List Byte) (h : data.getLast? = some CR) :
    (dropCR data).length + 1 = data.length := by
  have hne : data ≠ [] := by
    intro h0
    rw [h0] at h
    cases h
  have hpos : 0 < data.length := List.length_pos.mpr hne
  simp only [dropCR, if_pos h, List.length_dropLast]
  omega

theorem scanFrom_no_LF (srcErr : Option GoError) :
    ∀ (input pending : List Byte), LF ∉ input →
      pending.length + input.length < maxScanTokenSize →
      scanFrom srcErr input pending
        = (if pending ++ input = [] then [] else [dropCR (pending ++ input)], srcErr) := by
  intro input
  induction input with
  | nil =>
    intro pending _ _
    simp [scanFrom]
  | cons b rest ih =>
    intro pending hLF hlen
    have hb : b ≠ LF := fun h => hLF (by simp [h])
    have hrest : LF ∉ rest := fun h => hLF (List.mem_cons_of_mem _ h)
    have hlen1 : ¬ (pending.length + 1 ≥ maxScanTokenSize) := by
      simp only [List.length_cons] at hlen
      omega
    have hlen2 : (pending ++ [b]).length + rest.length < maxScanTokenSize := by
      simp only [List.length_cons, List.length_append, List.length_nil] at hlen ⊢
      omega
    rw [scanFrom, if_neg hb, if_neg hlen1, ih (pending ++ [b]) hrest hlen2]
    simp

theorem scanLines_singleLine (data : List Byte) (h : SingleLine data) (hne : data ≠ []) :
    scanLines data none = ([data], none) := by
  obtain ⟨hLF, hCR, hlen⟩ := h
  unfold scanLines
  rw [scanFrom_no_LF none data [] hLF (by simpa using hlen)]
  simp [hne, dropCR_of_getLast data hCR]

theorem scanFrom_until_LF (srcErr : Option GoError) :
    ∀ (pre rest pending : List Byte), LF ∉ pre →
      pending.length + pre.length < maxScanTokenSize →
      scanFrom srcErr (pre ++ LF :: rest) pending
        = (dropCR (pending ++ pre) :: (scanFrom srcErr rest []).1,
            (scanFrom srcErr rest []).2) := by
  intro pre
  induction pre with
  | nil =>
    intro rest pending _ _
    simp [scanFrom]
  | cons b pre ih =>
    intro rest pending hLF hlen
    have hb : b ≠ LF := fun h => hLF (by simp [h])
    have hpre : LF ∉ pre := fun h => hLF (List.mem_cons_of_mem _ h)
    have hlen1 : ¬ (pending.length + 1 ≥ maxScanTokenSize) := by
      simp only [List.length_cons] at hlen
      omega
    have hlen2 : (pending ++ [b]).length + pre.length < maxScanTokenSize := by
      simp only [List.length_cons, List.length_append, List.length_nil] at hlen ⊢
      omega
    rw [List.cons_append, scanFrom, if_neg hb, if_neg hlen1, ih rest (pending ++ [b]) hpre hlen2]
    simp

theorem scanFrom_too_long (srcErr : Option GoError) :
    ∀ (pre tail pending : List Byte), LF ∉ pre →
      pending.length < maxScanTokenSize →
      maxScanTokenSize ≤ pending.length + pre.length →
      scanFrom srcErr (pre ++ tail) pending = ([], some errTooLong) := by
  intro pre
  induction pre with
  | nil =>
    intro tail pending _ hlt hge
    simp only [List.length_nil] at hge
    omega
  | cons b rest ih =>
    intro tail pending hLF hlt hge
    have hb : b ≠ LF := fun h => hLF (by simp [h])
    have hrest : LF ∉ rest := fun h => hLF (List.mem_cons_of_mem _ h)
    rw [List.cons_append, scanFrom, if_neg hb]
    by_cases hfull : pending.length + 1 ≥ maxScanTokenSize
    · rw [if_pos hfull]
    · rw [if_neg hfull]
      apply ih tail (pending ++ [b]) hrest
      · simp only [List.length_append, List.length_cons, List.length_nil]
        omega
      · simp only [List.length_append, List.length_cons, List.length_nil] at hge ⊢
        omega

/-- A line of `maxScanTokenSize` bytes or more is not delivered: the scan stops
with `ErrTooLong`. -/
theorem scanLines_too_long (data : List Byte) (srcErr : Option GoError) (hLF : LF ∉ data)
    (hlen : maxScanTokenSize ≤ data.length) :
    scanLines data srcErr = ([], some errTooLong) := by
  have h := scanFrom_too_long srcErr data [] [] hLF (by simp [maxScanTokenSize])
    (by simpa using hlen)
  rw [List.append_nil] at h
  exact h

theorem scanFrom_length (srcErr : Option GoError) :
    ∀ (input pending : List Byte),
      ((scanFrom srcErr input pending).1.map List.length).sum
          + (scanFrom srcErr input pending).1.length
        ≤ pending.length + input.length + 1 := by
  intro input
  induction input with
  | nil =>
    intro pending
    have hle := dropCR_length_le pending
    by_cases hp : pending = []
    · simp [scanFrom, hp]
    · simp only [scanFrom, if_neg hp, List.map_cons, List.map_nil, List.sum_cons, List.sum_nil,
        List.length_cons, List.length_nil]
      omega
  | cons b rest ih =>
    intro pending
    rw [scanFrom]
    by_cases hb : b = LF
    · have hle := dropCR_length_le pending
      have hrest := ih []
      simp only [if_pos hb, List.map_cons, List.sum_cons, List.length_cons,
        List.length_nil] at hrest ⊢
      omega
    · by_cases hfull : pending.length + 1 ≥ maxScanTokenSize
      · simp [if_neg hb, if_pos hfull]
      · have hrest := ih (pending ++ [b])
        simp only [if_neg hb, if_neg hfull, List.length_append, List.length_cons,
          List.length_nil] at hrest ⊢
        omega

theorem split_at_first_LF :
    ∀ (data : List Byte), LF ∈ data → ∃ pre rest, data = pre ++ LF :: rest ∧ LF ∉ pre := by
  intro data
  induction data with
  | nil =>
    intro h
    cases h
  | cons b bs ih =>
    intro h
    by_cases hb : b = LF
    · exact ⟨[], bs, by simp [hb], by simp⟩
    · have hbs : LF ∈ bs := by
        rcases List.mem_cons.mp h with h1 | h1
        · exact absurd h1.symm hb
        · exact h1
      obtain ⟨pre, rest, heq, hpre⟩ := ih hbs
      refine ⟨b :: pre, rest, by simp [heq], ?_⟩
      intro hmem
      rcases List.mem_cons.mp hmem with h1 | h1
      · exact hb h1.symm
      · exact hpre h1

/-- For a file that is not a single line, either the scan ends with an error or
the lines it delivers are short of the file: with one byte counted for each
line they do not exceed the file by more than one byte, and a lone line is
shorter than the file. -/
theorem scanLines_of_not_singleLine (data : List Byte) (hne : data ≠ [])
    (h : ¬ SingleLine data) :
    (scanLines data none).2 ≠ none
      ∨ (((scanLines data none).1.map List.length).sum + (scanLines data none).1.length
            ≤ data.length + 1
          ∧ ((scanLines data none).1.length ≤ 1 →
            ((scanLines data none).1.map List.length).sum < data.length)) := by
  by_cases hLF : LF ∈ data
  · obtain ⟨pre, rest, heq, hpre⟩ := split_at_first_LF data hLF
    by_cases hlen : pre.length < maxScanTokenSize
    · right
      have hscan := scanFrom_until_LF none pre rest [] hpre (by simpa using hlen)
      have hrest := scanFrom_length none rest []
      have hle := dropCR_length_le ([] ++ pre)
      unfold scanLines
      rw [heq, hscan]
      simp only [List.nil_append, List.map_cons, List.sum_cons, List.length_cons,
        List.length_append, List.length_nil] at hrest hle ⊢
      constructor
      · omega
      · intro hk
        have hk0 : (scanFrom none rest []).1 = [] := List.length_eq_zero.mp (by omega)
        rw [hk0]
        simp only [List.map_nil, List.sum_nil]
        omega
    · left
      unfold scanLines
      rw [heq, scanFrom_too_long none pre (LF :: rest) [] hpre (by simp [maxScanTokenSize])
        (by simp only [List.length_nil]; omega)]
      simp
  · by_cases hlen : data.length < maxScanTokenSize
    · right
      have hCR : data.getLast? = some CR := by
        by_contra hCR
        exact h ⟨hLF, hCR, hlen⟩
      have hscan := scanFrom_no_LF none data [] hLF (by simpa using hlen)
      have hdrop := dropCR_length_of_CR data hCR
      unfold scanLines
      rw [hscan]
      simp only [List.nil_append, if_neg hne, List.map_cons, List.map_nil, List.sum_cons,
        List.sum_nil, List.length_cons, List.length_nil]
      constructor
      · omega
      · intro _
        omega
    · left
      rw [scanLines_too_long data none hLF (by omega)]
      simp

/-! ## The loop of `Read` -/

theorem readLoop_error_nil (c : Crypto) (gcm : GCM) (scErr : Option GoError) :
    ∀ (lines : List (List Byte)) (bytes : List Byte) (b : Option (List Byte)) (e : GoError),
      readLoop c gcm scErr lines bytes = .ret (b, some e) → b = none := by
  intro lines
  induction lines with
  | nil =>
    intro bytes b e h
    cases scErr with
    | none => simp [readLoop] at h
    | some err =>
      simp [readLoop] at h
      exact h.1.symm
  | cons data more ih =>
    intro bytes b e h
    rw [readLoop] at h
    simp only at h
    split at h
    · cases h
    · split at h
      · cases h
      · simp at h
        exact h.1.symm
      · exact ih _ b e h

theorem opensTo_length (c : Crypto) (k l p : List Byte) (h : OpensTo c k l p) :
    ¬ l.length < 12 := by
  intro hlt
  unfold OpensTo GCM.Open at h
  have hne : (List.take 12 l).length ≠ GCM.NonceSize ⟨k⟩ := by
    simp [GCM.NonceSize, List.length_take]
    omega
  rw [if_pos hne] at h
  cases h

theorem readLoop_prefix_open (c : Crypto) (k : List Byte) (scErr : Option GoError) :
    ∀ (good plains rest : List (List Byte)) (bytes : List Byte),
      List.Forall₂ (OpensTo c k) good plains →
      readLoop c ⟨k⟩ scErr (good ++ rest) bytes
        = readLoop c ⟨k⟩ scErr rest (bytes ++ reassemble plains) := by
  intro good plains rest bytes h
  induction h generalizing bytes with
  | nil => simp [reassemble]
  | @cons l p ls ps hlp _ ih =>
    have hlen := opensTo_length c k l p hlp
    unfold OpensTo at hlp
    rw [List.cons_append, readLoop]
    simp only [GCM.NonceSize, if_neg hlen, hlp]
    rw [ih]
    simp [reassemble]

theorem readLoop_some_scErr (c : Crypto) (gcm : GCM) (scErr : Option GoError) :
    ∀ (lines : List (List Byte)) (bytes out : List Byte),
      readLoop c gcm scErr lines bytes = .ret (some out, none) → scErr = none := by
  intro lines
  induction lines with
  | nil =>
    intro bytes out h
    cases scErr with
    | some err => simp [readLoop] at h
    | none => rfl
  | cons data more ih =>
    intro bytes out h
    rw [readLoop] at h
    simp only at h
    split at h
    · cases h
    · split at h
      · cases h
      · simp at h
      · exact ih _ out h

theorem Open_ok_length (c : Crypto) (hsize : OpenRemovesTag c) (g : GCM)
    (nonce ciphertext additionalData plaintext : List Byte)
    (h : GCM.Open c g nonce ciphertext additionalData = .ret (.ok plaintext)) :
    ciphertext.length = plaintext.length + 16 := by
  unfold GCM.Open at h
  split at h
  · cases h
  · split at h
    · cases h
    · split at h
      · cases h
      · split at h
        · cases h
        · rename_i hopen
          injection h with h
          injection h with h
          rw [← h]
          exact hsize _ _ _ _ _ hopen

theorem readLoop_length (c : Crypto) (hsize : OpenRemovesTag c) (gcm : GCM)
    (scErr : Option GoError) :
    ∀ (lines : List (List Byte)) (bytes out : List Byte),
      readLoop c gcm scErr lines bytes = .ret (some out, none) →
      out.length + 27 * lines.length = bytes.length + (lines.map List.length).sum := by
  intro lines
  induction lines with
  | nil =>
    intro bytes out h
    cases scErr with
    | some err => simp [readLoop] at h
    | none =>
      simp [readLoop] at h
      simp [h]
  | cons data more ih =>
    intro bytes out h
    rw [readLoop] at h
    simp only at h
    split at h
    · cases h
    · rename_i hlen
      split at h
      · cases h
      · simp at h
      · rename_i plaintext hopen
        have hct := Open_ok_length c hsize gcm _ _ _ _ hopen
        have hrec := ih _ out h
        simp only [GCM.NonceSize, List.length_drop, List.length_append, List.length_cons,
          List.length_nil, List.map_cons, List.sum_cons] at hct hrec hlen ⊢
        omega

/-! ## The effect of `Write` -/

theorem freshNonce_length (rand : Nat → Byte) : (freshNonce rand).length = 12 := by
  simp [freshNonce]

theorem osOpenFileAppend_ok (env : Env) (fs : FS) (path : String) (h : env.openErr = none) :
    ∃ fs1, osOpenFileAppend env fs path = .ok fs1 ∧ fs1.contents path = fs.contents path
      ∧ ∀ d, fs1.put path d = fs.put path d := by
  cases hf : fs path with
  | none =>
    refine ⟨fs.put path [], by simp [osOpenFileAppend, h, hf], ?_, ?_⟩
    · simp [FS.contents, FS.put, hf]
    · intro d
      funext q
      simp only [FS.put]
      split <;> rfl
  | some d0 =>
    exact ⟨fs, by simp [osOpenFileAppend, h, hf], rfl, fun _ => rfl⟩

theorem Write_eq (c : Crypto) (env : Env) (fs : FS) (path : String)
    (passphrase contents : List Byte) :
    Write c env fs path passphrase contents =
      match env.randErr with
      | some err => .ret (some err, fs)
      | none =>
        if contents.length > (2 ^ 32 - 2) * 16 then
          .panic "crypto/cipher: message too large for GCM"
        else
          match env.openErr with
          | some cause => .ret (some (errorf "opening keychain" (pathError "open" path cause)), fs)
          | none =>
            match env.writeErr with
            | some (n, cause) =>
              .ret (some (errorf "adding key" (pathError "write" path cause)),
                fs.put path (fs.contents path
                  ++ (record c (derivedKey c passphrase) (freshNonce env.rand) contents).take n))
            | none =>
              match env.closeErr with
              | some cause =>
                .ret (some (errorf "adding key" (pathError "close" path cause)),
                  fs.put path (fs.contents path
                    ++ record c (derivedKey c passphrase) (freshNonce env.rand) contents))
              | none =>
                .ret (none,
                  fs.put path (fs.contents path
                    ++ record c (derivedKey c passphrase) (freshNonce env.rand) contents)) := by
  simp only [Write, key_eq, aesNewCipher_derivedKey, cipherNewGCM, randRead]
  cases hr : env.randErr with
  | some err => rfl
  | none =>
    have hn : ¬ ((List.map env.rand (List.range (GCM.NonceSize ⟨derivedKey c passphrase⟩))).length
        ≠ GCM.NonceSize ⟨derivedKey c passphrase⟩) := by
      simp
    simp only [GCM.Seal, if_neg hn]
    by_cases hbig : contents.length > (2 ^ 32 - 2) * 16
    · simp only [if_pos hbig]
    · simp only [if_neg hbig]
      cases ho : env.openErr with
      | some err => simp [osOpenFileAppend, ho]
      | none =>
        obtain ⟨fs1, h1, h2, h3⟩ := osOpenFileAppend_ok env fs path ho
        simp only [h1, fileWrite, fileClose, h2, h3]
        cases hw : env.writeErr with
        | some ne =>
          obtain ⟨n, err⟩ := ne
          simp [record, freshNonce, GCM.NonceSize]
        | none =>
          cases hc : env.closeErr with
          | some err => simp [record, freshNonce, GCM.NonceSize]
          | none => simp [record, freshNonce, GCM.NonceSize]

theorem Write_quiet (c : Crypto) (rand : Nat → Byte) (fs : FS) (path : String)
    (passphrase contents : List Byte) (hlen : contents.length ≤ (2 ^ 32 - 2) * 16) :
    Write c (Env.quiet rand) fs path passphrase contents
      = .ret (none, fs.put path (fs.contents path
          ++ record c (derivedKey c passphrase) (freshNonce rand) contents)) := by
  have h : ¬ contents.length > (2 ^ 32 - 2) * 16 := by omega
  rw [Write_eq]
  simp only [Env.quiet, if_neg h]

theorem record_length (c : Crypto) (k nonce contents : List Byte) (hn : nonce.length = 12) :
    (record c k nonce contents).length = 12 + contents.length + 16 := by
  simp [record, hn, c.gcmSeal_length]
  omega

theorem contents_small (c : Crypto) (k nonce contents : List Byte) (n : Nat)
    (hn : nonce.length = 12)
    (h : (record c k nonce contents).length + n < maxScanTokenSize) :
    contents.length ≤ (2 ^ 32 - 2) * 16 := by
  rw [record_length c k nonce contents hn] at h
  simp only [maxScanTokenSize] at h
  omega

/-! ## Reading what was written -/

theorem osOpen_put (rand : Nat → Byte) (fs : FS) (path : String) (data : List Byte) :
    osOpen (Env.quiet rand) (fs.put path data) path = .ok data := by
  simp [osOpen, Env.quiet, FS.put]

theorem fileReadErr_quiet (rand : Nat → Byte) (path : String) :
    fileReadErr (Env.quiet rand) path = none := by
  simp [fileReadErr, Env.quiet]

theorem contents_of_absent_or_empty (fs : FS) (path : String)
    (h : fs path = none ∨ fs path = some []) : fs.contents path = [] := by
  rcases h with h | h <;> simp [FS.contents, h]

/-- `Read` on a file that the scanner delivers as one line of at least 12 bytes:
one call of `Open` decides the result. -/
theorem Read_one_line (c : Crypto) (env : Env) (fs : FS) (path : String)
    (passphrase data : List Byte) (hopen : osOpen env fs path = .ok data)
    (herr : fileReadErr env path = none) (hline : SingleLine data) (hlen : 12 ≤ data.length) :
    Read c env fs path passphrase
      = match GCM.Open c ⟨derivedKey c passphrase⟩ (data.take 12) (data.drop 12) [] with
        | .panic msg => .panic msg
        | .ret (.error err) => .ret (none, some err)
        | .ret (.ok plaintext) => .ret (some (plaintext ++ [LF]), none) := by
  have hne : data ≠ [] := by
    intro h
    rw [h] at hlen
    simp at hlen
  rw [Read_of_open c env fs path passphrase data hopen, herr, scanLines_singleLine data hline hne]
  have h12 : ¬ data.length < 12 := by omega
  simp only [readLoop, GCM.NonceSize, if_neg h12]
  split <;> simp_all [readLoop]

/-- `Open` under key `k2` of what was sealed under key `k1`, for a 12-byte nonce
and a ciphertext within the size limit: the primitive decides. -/
theorem Open_sealed (c : Crypto) (k1 k2 nonce contents rest : List Byte)
    (hn : nonce.length = 12)
    (hlen : (c.gcmSeal k1 nonce contents [] ++ rest).length < maxScanTokenSize) :
    GCM.Open c ⟨k2⟩ nonce (c.gcmSeal k1 nonce contents [] ++ rest) []
      = match c.gcmOpen k2 nonce (c.gcmSeal k1 nonce contents [] ++ rest) [] with
        | none => .ret (.error errOpen)
        | some plaintext => .ret (.ok plaintext) := by
  have h1 : ¬ (nonce.length ≠ GCM.NonceSize ⟨k2⟩) := by simp [GCM.NonceSize, hn]
  have h2 : ¬ ((c.gcmSeal k1 nonce contents [] ++ rest).length < GCM.Overhead ⟨k2⟩) := by
    simp only [GCM.Overhead, List.length_append, c.gcmSeal_length]
    omega
  have h3 : ¬ ((c.gcmSeal k1 nonce contents [] ++ rest).length
      > (2 ^ 32 - 2) * 16 + GCM.Overhead ⟨k2⟩) := by
    simp only [GCM.Overhead, maxScanTokenSize] at hlen ⊢
    omega
  simp only [GCM.Open, if_neg h1, if_neg h2, if_neg h3]

/-- `Read` with passphrase `p2` on a file that holds a record written under
passphrase `p1`, directly followed by `rest`, when the whole is a single line. -/
theorem Read_one_record (c : Crypto) (env : Env) (fs : FS) (path : String)
    (p1 p2 nonce contents rest : List Byte) (hn : nonce.length = 12)
    (hopen : osOpen env fs path = .ok (record c (derivedKey c p1) nonce contents ++ rest))
    (herr : fileReadErr env path = none)
    (hline : SingleLine (record c (derivedKey c p1) nonce contents ++ rest)) :
    Read c env fs path p2
      = match c.gcmOpen (derivedKey c p2) nonce
            (c.gcmSeal (derivedKey c p1) nonce contents [] ++ rest) [] with
        | none => .ret (none, some errOpen)
        | some plaintext => .ret (some (plaintext ++ [LF]), none) := by
  have hlen := record_length c (derivedKey c p1) nonce contents hn
  have hlt := hline.2.2
  have htake : (record c (derivedKey c p1) nonce contents ++ rest).take 12 = nonce := by
    simp [record, List.take_append_eq_append_take, hn]
  have hdrop : (record c (derivedKey c p1) nonce contents ++ rest).drop 12
      = c.gcmSeal (derivedKey c p1) nonce contents [] ++ rest := by
    simp [record, List.drop_append_eq_append_drop, hn]
  have hlt2 : (c.gcmSeal (derivedKey c p1) nonce contents [] ++ rest).length
      < maxScanTokenSize := by
    simp only [record, List.length_append] at hlt ⊢
    omega
  rw [Read_one_line c env fs path p2 _ hopen herr hline
      (by rw [List.length_append, hlen]; omega),
    htake, hdrop, Open_sealed c _ _ nonce contents rest hn hlt2]
  cases c.gcmOpen (derivedKey c p2) nonce
    (c.gcmSeal (derivedKey c p1) nonce contents [] ++ rest) [] <;> rfl

theorem Read_short_first_line (c : Crypto) (env : Env) (fs : FS) (path : String)
    (passphrase file line : List Byte) (more : List (List Byte)) (scErr : Option GoError)
    (hopen : osOpen env fs path = .ok file)
    (hscan : scanLines file (fileReadErr env path) = (line :: more, scErr))
    (hshort : line.length < 12) :
    Read c env fs path passphrase = .panic "runtime error: slice bounds out of range" := by
  rw [Read_of_open c env fs path passphrase file hopen, hscan]
  simp [readLoop, GCM.NonceSize, hshort]

theorem Read_line_feed_in_nonce (c : Crypto) (env : Env) (fs : FS) (path : String)
    (passphrase pre rest : List Byte)
    (hopen : osOpen env fs path = .ok (pre ++ LF :: rest))
    (hLF : LF ∉ pre) (hshort : pre.length < 12) :
    Read c env fs path passphrase = .panic "runtime error: slice bounds out of range" := by
  have hscan := scanFrom_until_LF (fileReadErr env path) pre rest [] hLF
    (by simp only [List.length_nil, maxScanTokenSize]; omega)
  have hle := dropCR_length_le ([] ++ pre)
  simp only [List.nil_append] at hle
  exact Read_short_first_line c env fs path passphrase _ _ _ _ hopen hscan
    (by simp only [List.nil_append]; omega)

/-- A file of zero bytes: `Read` returns the empty slice and a nil error. -/
theorem Read_empty_file (c : Crypto) (rand : Nat → Byte) (fs : FS) (path : String)
    (passphrase : List Byte) :
    Read c (Env.quiet rand) (fs.put path []) path passphrase = .ret (some [], none) := by
  rw [Read_of_open c _ _ path passphrase [] (osOpen_put rand fs path []), fileReadErr_quiet]
  simp [scanLines, scanFrom, readLoop]

/-- The converse of the conditional round trip: when `Read` returns the
contents and a line feed from a file that holds just the record of one
`Write`, that record is a single scanner line. -/
theorem round_trip_only_if_single_line (c : Crypto) (hsize : OpenRemovesTag c)
    (rand rand' : Nat → Byte) (fs : FS) (path : String) (passphrase contents : List Byte)
    (hread : Read c (Env.quiet rand')
        (fs.put path (record c (derivedKey c passphrase) (freshNonce rand) contents))
        path passphrase
      = .ret (some (contents ++ [LF]), none)) :
    SingleLine (record c (derivedKey c passphrase) (freshNonce rand) contents) := by
  by_contra hnot
  have hn := freshNonce_length rand
  have hlen := record_length c (derivedKey c passphrase) (freshNonce rand) contents hn
  have hne : record c (derivedKey c passphrase) (freshNonce rand) contents ≠ [] := by
    intro h0
    rw [h0] at hlen
    simp at hlen
  rw [Read_of_open c _ _ path passphrase _ (osOpen_put rand' fs path _),
    fileReadErr_quiet] at hread
  have herr := readLoop_some_scErr c _ _ _ _ _ hread
  have hcount := readLoop_length c hsize _ _ _ _ _ hread
  rcases scanLines_of_not_singleLine _ hne hnot with hbad | ⟨htotal, hlone⟩
  · exact hbad herr
  · simp only [List.length_append, List.length_cons, List.length_nil] at hcount
    have hk : (scanLines (record c (derivedKey c passphrase) (freshNonce rand) contents)
        none).1.length ≤ 1 := by omega
    have hlt := hlone hk
    by_cases hk0 : (scanLines (record c (derivedKey c passphrase) (freshNonce rand) contents)
        none).1.length = 0
    · have hnil := List.length_eq_zero.mp hk0
      rw [hnil] at hcount
      simp at hcount
    · omega

/-! ## The executable instance -/

theorem xor_cancel (b m : Byte) : b ^^^ m ^^^ m = b := by
  cases b with
  | mk b =>
    cases m with
    | mk m =>
      show UInt8.mk (b ^^^ m ^^^ m) = UInt8.mk b
      rw [BitVec.xor_assoc, BitVec.xor_self, BitVec.xor_zero]

/-- The cipher of `demoCrypto` opens what it sealed. -/
theorem demoCrypto_openInvertsSeal : OpenInvertsSeal demoCrypto := by
  intro key nonce plaintext additionalData
  show demoOpen key nonce (demoSeal key nonce plaintext additionalData) additionalData
    = some plaintext
  have hlen : (demoSeal key nonce plaintext additionalData).length - 16 = plaintext.length := by
    simp [demoSeal, demoTag]
  have htake : (demoSeal key nonce plaintext additionalData).take plaintext.length
      = plaintext.map (fun b => b ^^^ xorAll (key ++ nonce)) := by
    simp [demoSeal, List.take_append_eq_append_take]
  have hdrop : (demoSeal key nonce plaintext additionalData).drop plaintext.length
      = demoTag key nonce (plaintext.map (fun b => b ^^^ xorAll (key ++ nonce)))
          additionalData := by
    simp [demoSeal, List.drop_append_eq_append_drop]
  unfold demoOpen
  simp only [hlen, htake, hdrop, if_true, List.map_map]
  congr 1
  have hid : ((fun b : Byte => b ^^^ xorAll (key ++ nonce))
      ∘ fun b => b ^^^ xorAll (key ++ nonce)) = id := by
    funext b
    simp only [Function.comp, id]
    exact xor_cancel b _
  rw [hid, List.map_id]

/-- The cipher of `demoCrypto` returns the ciphertext without its tag. -/
theorem demoCrypto_openRemovesTag : OpenRemovesTag demoCrypto := by
  intro key nonce ciphertext additionalData plaintext h
  change demoOpen key nonce ciphertext additionalData = some plaintext at h
  unfold demoOpen at h
  simp only at h
  split at h
  · rename_i htag
    have hlen := congrArg List.length htag
    simp only [List.length_drop, demoTag, List.length_replicate] at hlen
    injection h with h
    rw [← h]
    simp only [List.length_map, List.length_take]
    omega
  · cases h

/-! ## The claims -/

/-- Claim C1, as stated, fails: with the nonce 0, 1, ..., 11, whose eleventh
byte is a line feed, the scanner cuts the record after 10 bytes and `Read`
panics on that line; whatever the cipher, `Read` after `Write` does not return
the contents followed by a line feed. -/
theorem round_trip_fails_on_line_feed :
    (∃ fs', Write demoCrypto (Env.quiet countingRand) FS.empty "keychain" passA hi
          = .ret (none, fs')
        ∧ Read demoCrypto (Env.quiet countingRand) fs' "keychain" passA
          = .panic "runtime error: slice bounds out of range")
      ∧ ¬ ∃ (c : Crypto) (fs' : FS),
          Write c (Env.quiet countingRand) FS.empty "keychain" passA hi = .ret (none, fs')
            ∧ Read c (Env.quiet countingRand) fs' "keychain" passA
              = .ret (some (hi ++ [LF]), none) := by
  refine ⟨⟨_, rfl, by decide⟩, ?_⟩
  rintro ⟨c, fs', hw, hr⟩
  rw [Write_quiet c countingRand FS.empty "keychain" passA hi (by decide)] at hw
  injection hw with hw
  injection hw with _ hfs
  rw [← hfs] at hr
  have hopen : osOpen (Env.quiet countingRand)
      (FS.empty.put "keychain" (FS.empty.contents "keychain"
        ++ record c (derivedKey c passA) (freshNonce countingRand) hi)) "keychain"
      = .ok ([0, 1, 2, 3, 4, 5, 6, 7, 8, 9] ++ LF
          :: (11 :: c.gcmSeal (derivedKey c passA) (freshNonce countingRand) hi [])) :=
    osOpen_put countingRand FS.empty "keychain" _
  rw [Read_line_feed_in_nonce c _ _ "keychain" passA _ _ hopen (by decide) (by decide)] at hr
  cases hr

/-- Claim C1, amended: for a non-empty passphrase, if the record that `Write`
appends to an absent or empty file holds no line feed, does not end in a
carriage return and has fewer than 65536 bytes, and `Open` inverts `Seal`, then
`Write` succeeds, the file holds exactly that record, and `Read` with the same
passphrase returns the contents followed by one line feed, with a nil error. -/
theorem round_trip_of_single_line (c : Crypto) (rand rand' : Nat → Byte) (fs : FS)
    (path : String) (passphrase contents k : List Byte)
    (hpass : passphrase ≠ [])
    (hinv : OpenInvertsSeal c)
    (hk : key c passphrase = .ok k)
    (hfile : fs.contents path = [])
    (hLF : LF ∉ record c k (freshNonce rand) contents)
    (hCR : (record c k (freshNonce rand) contents).getLast? ≠ some CR)
    (hlen : (record c k (freshNonce rand) contents).length < 65536) :
    ∃ fs', Write c (Env.quiet rand) fs path passphrase contents = .ret (none, fs')
      ∧ fs' path = some (record c k (freshNonce rand) contents)
      ∧ Read c (Env.quiet rand') fs' path passphrase = .ret (some (contents ++ [LF]), none) := by
  have _hp := hpass
  rw [(key_ok_iff c passphrase k).mp hk] at hLF hCR hlen ⊢
  have hn := freshNonce_length rand
  have hsmall := contents_small c _ (freshNonce rand) contents 0 hn
    (by simpa [maxScanTokenSize] using hlen)
  have hline : SingleLine
      (record c (derivedKey c passphrase) (freshNonce rand) contents ++ []) := by
    rw [List.append_nil]
    exact ⟨hLF, hCR, by simpa [maxScanTokenSize] using hlen⟩
  refine ⟨_, Write_quiet c rand fs path passphrase contents hsmall, ?_, ?_⟩
  · simp [FS.put, hfile]
  · rw [hfile, List.nil_append]
    rw [Read_one_record c (Env.quiet rand') _ path passphrase passphrase (freshNonce rand)
        contents [] hn (by rw [List.append_nil]; exact osOpen_put rand' fs path _)
        (fileReadErr_quiet rand' path) hline,
      List.append_nil, hinv]

/-- The amended claim C1 at passphrase `a`, contents `yo` and the nonce
`abcdefghijkl`, on a file system without the file. -/
theorem round_trip_of_single_line_witness :
    ∃ fs', Write demoCrypto (Env.quiet demoRand2) FS.empty "keychain" passA yo
        = .ret (none, fs')
      ∧ fs' "keychain" = some yoRecord
      ∧ Read demoCrypto (Env.quiet demoRand2) fs' "keychain" passA
        = .ret (some [121, 111, 10], none) :=
  round_trip_of_single_line demoCrypto demoRand2 demoRand2 FS.empty "keychain" passA yo
    (derivedKey demoCrypto passA) (by decide) demoCrypto_openInvertsSeal (by decide) rfl
    (by decide) (by decide) (by decide)

/-- Claim C2, on the code: `Write` sends no line end after a record, so after
two writes to an absent or empty file the file is the first record directly
followed by the second.  When those bytes form a single scanner line, `Read`
calls `Open` once, with the first nonce and everything after it: it returns the
authentication error or one plaintext of len(m1) + len(m2) + 28 bytes, never
the first contents, a line feed, the second contents and a line feed. -/
theorem second_write_breaks_read (c : Crypto) (rand1 rand2 rand' : Nat → Byte) (fs : FS)
    (path : String) (passphrase m1 m2 k : List Byte)
    (hsize : OpenRemovesTag c)
    (hk : key c passphrase = .ok k)
    (hfile : fs path = none ∨ fs path = some [])
    (hline : SingleLine
      (record c k (freshNonce rand1) m1 ++ record c k (freshNonce rand2) m2)) :
    ∃ fs1 fs2, Write c (Env.quiet rand1) fs path passphrase m1 = .ret (none, fs1)
      ∧ Write c (Env.quiet rand2) fs1 path passphrase m2 = .ret (none, fs2)
      ∧ fs2 path
        = some (record c k (freshNonce rand1) m1 ++ record c k (freshNonce rand2) m2)
      ∧ Read c (Env.quiet rand') fs2 path passphrase
        = (match c.gcmOpen k (freshNonce rand1)
            (c.gcmSeal k (freshNonce rand1) m1 [] ++ record c k (freshNonce rand2) m2) [] with
          | none => .ret (none, some errOpen)
          | some plaintext => .ret (some (plaintext ++ [LF]), none))
      ∧ Read c (Env.quiet rand') fs2 path passphrase
        ≠ .ret (some (m1 ++ [LF] ++ m2 ++ [LF]), none) := by
  rw [(key_ok_iff c passphrase k).mp hk] at hline ⊢
  have hn1 := freshNonce_length rand1
  have hn2 := freshNonce_length rand2
  have hlt := hline.2.2
  rw [List.length_append] at hlt
  have hsmall1 := contents_small c _ (freshNonce rand1) m1 _ hn1 hlt
  have hsmall2 := contents_small c (derivedKey c passphrase) (freshNonce rand2) m2
    (record c (derivedKey c passphrase) (freshNonce rand1) m1).length hn2
    (by omega)
  have hc1 : (fs.put path (fs.contents path
      ++ record c (derivedKey c passphrase) (freshNonce rand1) m1)).contents path
      = record c (derivedKey c passphrase) (freshNonce rand1) m1 := by
    rw [contents_of_absent_or_empty fs path hfile]
    simp [FS.contents, FS.put]
  have hread := Read_one_record c (Env.quiet rand')
    ((fs.put path (fs.contents path
      ++ record c (derivedKey c passphrase) (freshNonce rand1) m1)).put path
        (record c (derivedKey c passphrase) (freshNonce rand1) m1
          ++ record c (derivedKey c passphrase) (freshNonce rand2) m2))
    path passphrase passphrase (freshNonce rand1)
    m1 (record c (derivedKey c passphrase) (freshNonce rand2) m2) hn1
    (osOpen_put rand' _ path _) (fileReadErr_quiet rand' path) hline
  refine ⟨_, _, Write_quiet c rand1 fs path passphrase m1 hsmall1,
    Write_quiet c rand2 _ path passphrase m2 hsmall2, ?_, ?_, ?_⟩
  · rw [hc1]
    simp [FS.put]
  · rw [hc1]
    exact hread
  · rw [hc1, hread]
    cases hopen : c.gcmOpen (derivedKey c passphrase) (freshNonce rand1)
        (c.gcmSeal (derivedKey c passphrase) (freshNonce rand1) m1 []
          ++ record c (derivedKey c passphrase) (freshNonce rand2) m2) [] with
    | none =>
      intro h
      cases h
    | some plaintext =>
      intro h
      have hlen := hsize _ _ _ _ _ hopen
      rw [List.length_append, c.gcmSeal_length,
        record_length c _ (freshNonce rand2) m2 hn2] at hlen
      injection h with h
      injection h with h
      injection h with h
      have hl := congrArg List.length h
      simp only [List.length_append, List.length_cons, List.length_nil] at hl
      omega

/-- The claim C2 theorem at passphrase `a`: `hi` is written with the nonce
`ABCDEFGHIJKL`, then `yo` with the nonce `abcdefghijkl`; the file holds the
two records without a separator and `Read` fails. -/
theorem second_write_breaks_read_witness :
    ∃ fs1 fs2, Write demoCrypto (Env.quiet demoRand) FS.empty "keychain" passA hi
        = .ret (none, fs1)
      ∧ Write demoCrypto (Env.quiet demoRand2) fs1 "keychain" passA yo = .ret (none, fs2)
      ∧ fs2 "keychain" = some (hiRecord ++ yoRecord)
      ∧ Read demoCrypto (Env.quiet demoRand) fs2 "keychain" passA
        = .ret (none, some errOpen)
      ∧ Read demoCrypto (Env.quiet demoRand) fs2 "keychain" passA
        ≠ .ret (some [104, 105, 10, 121, 111, 10], none) := by
  obtain ⟨fs1, fs2, h1, h2, h3, h4, h5⟩ :=
    second_write_breaks_read demoCrypto demoRand demoRand2 demoRand FS.empty "keychain" passA
      hi yo (derivedKey demoCrypto passA) demoCrypto_openRemovesTag (by decide) (Or.inl rfl)
      (by decide)
  exact ⟨fs1, fs2, h1, h2, h3.trans (by decide), h4.trans (by decide), h5⟩

/-- Claim C3, on the code: a line shorter than the 12-byte nonce is not rejected
with an error.  When the lines before it open, `Read` reaches the slice
expressions `data[:nonceSize]` and `data[nonceSize:]` with such a line and
panics with a slice bounds error instead of returning. -/
theorem Read_short_line_panics (c : Crypto) (env : Env) (fs : FS) (path : String)
    (passphrase file k line : List Byte) (good plains more : List (List Byte))
    (scErr : Option GoError)
    (hopen : osOpen env fs path = .ok file)
    (hk : key c passphrase = .ok k)
    (hscan : scanLines file (fileReadErr env path) = (good ++ line :: more, scErr))
    (hgood : List.Forall₂ (OpensTo c k) good plains)
    (hshort : line.length < 12) :
    Read c env fs path passphrase = .panic "runtime error: slice bounds out of range" := by
  rw [(key_ok_iff c passphrase k).mp hk] at hgood
  rw [Read_of_open c env fs path passphrase file hopen, hscan,
    readLoop_prefix_open c _ scErr good plains (line :: more) [] hgood]
  simp [readLoop, GCM.NonceSize, hshort]

/-- The claim C3 theorem at a file that holds one sealed record, a line feed
and an empty line: the record opens to `hi`, the empty second line makes
`Read` panic. -/
theorem Read_short_line_panics_witness :
    Read demoCrypto (Env.quiet demoRand) (keychainOnly (hiRecord ++ [LF, LF])) "keychain" passA
      = .panic "runtime error: slice bounds out of range" :=
  Read_short_line_panics demoCrypto (Env.quiet demoRand) (keychainOnly (hiRecord ++ [LF, LF]))
    "keychain" passA (hiRecord ++ [LF, LF]) (derivedKey demoCrypto passA) []
    [hiRecord] [hi] [] none
    (by decide) (by decide) (by decide) (.cons (by decide) .nil) (by decide)

/-- Claim C4, on the code: `Write` under passphrase `a` draws a nonce that
starts with a line feed, so the first line the scanner delivers is empty, and
`Read` under passphrase `b` reaches the unguarded slice expressions and panics.
Whatever the cipher, it does not return an error, or anything else. -/
theorem wrong_key_read_panics :
    (∃ fs', Write demoCrypto (Env.quiet lineFeedRand) FS.empty "keychain" passA hi
          = .ret (none, fs')
        ∧ Read demoCrypto (Env.quiet lineFeedRand) fs' "keychain" passB
          = .panic "runtime error: slice bounds out of range")
      ∧ ¬ ∃ (c : Crypto) (fs' : FS) (bytes : Option (List Byte)) (err : GoError),
          Write c (Env.quiet lineFeedRand) FS.empty "keychain" passA hi = .ret (none, fs')
            ∧ Read c (Env.quiet lineFeedRand) fs' "keychain" passB
              = .ret (bytes, some err) := by
  refine ⟨⟨_, rfl, by decide⟩, ?_⟩
  rintro ⟨c, fs', bytes, err, hw, hr⟩
  rw [Write_quiet c lineFeedRand FS.empty "keychain" passA hi (by decide)] at hw
  injection hw with hw
  injection hw with _ hfs
  rw [← hfs] at hr
  have hopen : osOpen (Env.quiet lineFeedRand)
      (FS.empty.put "keychain" (FS.empty.contents "keychain"
        ++ record c (derivedKey c passA) (freshNonce lineFeedRand) hi)) "keychain"
      = .ok ([] ++ LF
          :: ([LF, LF, LF, LF, LF, LF, LF, LF, LF, LF, LF]
            ++ c.gcmSeal (derivedKey c passA) (freshNonce lineFeedRand) hi [])) :=
    osOpen_put lineFeedRand FS.empty "keychain" _
  rw [Read_line_feed_in_nonce c _ _ "keychain" passB _ _ hopen (by decide) (by decide)] at hr
  cases hr

/-- Claim C5: whenever `Read` returns a non-nil error, whichever step failed
and however many lines were opened before, the byte slice it returns is nil. -/
theorem Read_error_returns_nil (c : Crypto) (env : Env) (fs : FS) (path : String)
    (passphrase : List Byte) (bytes : Option (List Byte)) (err : GoError)
    (h : Read c env fs path passphrase = .ret (bytes, some err)) : bytes = none := by
  cases hopen : osOpen env fs path with
  | error e =>
    simp [Read, hopen] at h
    exact h.1.symm
  | ok file =>
    rw [Read_of_open c env fs path passphrase file hopen] at h
    exact readLoop_error_nil c _ _ _ _ bytes err h

/-- The claim C5 theorem at a file whose first line opens to `hi` and whose
second line is a bare nonce: `Read` fails on the second line and returns nil. -/
theorem Read_error_returns_nil_witness :
    ∃ bytes,
      Read demoCrypto (Env.quiet demoRand)
          (keychainOnly (hiRecord ++ [LF] ++ freshNonce demoRand)) "keychain" passA
        = .ret (bytes, some errOpen)
      ∧ bytes = none :=
  ⟨none, by decide,
    Read_error_returns_nil demoCrypto (Env.quiet demoRand)
      (keychainOnly (hiRecord ++ [LF] ++ freshNonce demoRand)) "keychain" passA
      none errOpen (by decide)⟩

/-- Claim C6: when the file opens, the scanner splits it into lines without an
error and every line opens under the derived key (nonce: its first 12 bytes,
ciphertext and tag: the rest), `Read` returns the plaintexts in file order, each
followed by a line feed, and a nil error; for a file of zero bytes that is the
empty result. -/
theorem Read_reassembles (c : Crypto) (env : Env) (fs : FS) (path : String)
    (passphrase file k : List Byte) (lines plains : List (List Byte))
    (hopen : osOpen env fs path = .ok file)
    (hk : key c passphrase = .ok k)
    (hscan : scanLines file (fileReadErr env path) = (lines, none))
    (hall : List.Forall₂ (OpensTo c k) lines plains) :
    Read c env fs path passphrase = .ret (some (reassemble plains), none)
      ∧ (file = [] → Read c env fs path passphrase = .ret (some [], none)) := by
  rw [(key_ok_iff c passphrase k).mp hk] at hall
  have hread : Read c env fs path passphrase = .ret (some (reassemble plains), none) := by
    rw [Read_of_open c env fs path passphrase file hopen, hscan]
    have h := readLoop_prefix_open c _ none lines plains [] [] hall
    rw [List.append_nil] at h
    rw [h]
    simp [readLoop]
  refine ⟨hread, ?_⟩
  intro hfile
  rw [hfile] at hscan
  have hlines : lines = [] := by
    simp [scanLines, scanFrom] at hscan
    exact hscan.1
  rw [hlines] at hall
  cases hall
  simpa [reassemble] using hread

/-- The claim C6 theorem at a file of two lines, the records of `hi` and `yo`:
`Read` returns `hi`, line feed, `yo`, line feed. -/
theorem Read_reassembles_witness :
    Read demoCrypto (Env.quiet demoRand) (keychainOnly (hiRecord ++ [LF] ++ yoRecord ++ [LF]))
        "keychain" passA
      = .ret (some [104, 105, 10, 121, 111, 10], none) :=
  (Read_reassembles demoCrypto (Env.quiet demoRand)
    (keychainOnly (hiRecord ++ [LF] ++ yoRecord ++ [LF])) "keychain" passA
    (hiRecord ++ [LF] ++ yoRecord ++ [LF]) (derivedKey demoCrypto passA)
    [hiRecord, yoRecord] [hi, yo]
    (by decide) (by decide) (by decide) (.cons (by decide) (.cons (by decide) .nil))).1

/-- Claim C7: after a successful `Write` the file holds its former contents
(none for an absent file) followed by the nonce and by the contents sealed under
the derived key with that nonce and no additional data; the appended part has
12 + len(contents) + 16 bytes, and no other file changes. -/
theorem Write_appends (c : Crypto) (env : Env) (fs fs' : FS) (path : String)
    (passphrase contents : List Byte)
    (h : Write c env fs path passphrase contents = .ret (none, fs')) :
    ∃ k, key c passphrase = .ok k
      ∧ fs' path = some (fs.contents path
          ++ (freshNonce env.rand ++ c.gcmSeal k (freshNonce env.rand) contents []))
      ∧ (freshNonce env.rand ++ c.gcmSeal k (freshNonce env.rand) contents []).length
          = 12 + contents.length + 16
      ∧ ∀ other, other ≠ path → fs' other = fs other := by
  refine ⟨derivedKey c passphrase, key_eq c passphrase, ?_⟩
  have hlen := record_length c (derivedKey c passphrase) (freshNonce env.rand) contents
    (freshNonce_length env.rand)
  rw [Write_eq] at h
  have hfs : fs' = fs.put path (fs.contents path
      ++ record c (derivedKey c passphrase) (freshNonce env.rand) contents) := by
    split at h
    · simp at h
    · split at h
      · cases h
      · split at h
        · simp at h
        · split at h
          · simp at h
          · split at h
            · simp at h
            · simp at h
              exact h.symm
  refine ⟨?_, hlen, ?_⟩
  · rw [hfs]
    simp [FS.put, record]
  · intro other hne
    rw [hfs]
    simp [FS.put, hne]

/-- The claim C7 theorem at a `keychain` that holds the bytes 1, 2, 3: after the
write it holds 1, 2, 3 and the record of `hi`. -/
theorem Write_appends_witness :
    ∃ fs', Write demoCrypto (Env.quiet demoRand) (keychainOnly [1, 2, 3]) "keychain" passA hi
        = .ret (none, fs')
      ∧ fs' "keychain" = some ([1, 2, 3] ++ hiRecord) := by
  refine ⟨_, rfl, ?_⟩
  obtain ⟨k, hk, hfile, _, _⟩ :=
    Write_appends demoCrypto (Env.quiet demoRand) (keychainOnly [1, 2, 3]) _ "keychain" passA hi
      rfl
  rw [hfile]
  have hk2 : k = derivedKey demoCrypto passA := (key_ok_iff demoCrypto passA k).mp hk
  rw [hk2]
  decide

/-- Claim C8: `key` is scrypt of the passphrase with the MD5 digest of the
passphrase as salt, N = 32768 = 2^15, r = 8, p = 1 and 32 bytes of output; it
succeeds with a 32-byte key, and `Read` and `Write` depend on the passphrase
only through this key. -/
theorem key_is_scrypt_of_md5 (c : Crypto) (passphrase : List Byte) :
    key c passphrase = scryptKey c passphrase (c.md5Sum passphrase) (2 ^ 15) 8 1 32
      ∧ (∃ k, key c passphrase = .ok k ∧ k.length = 32)
      ∧ ∀ other, key c other = key c passphrase →
          (∀ env fs path, Read c env fs path other = Read c env fs path passphrase)
          ∧ (∀ env fs path contents,
              Write c env fs path other contents = Write c env fs path passphrase contents) := by
  refine ⟨?_, ⟨derivedKey c passphrase, key_eq c passphrase, derivedKey_length c passphrase⟩, ?_⟩
  · have h15 : (2 : Nat) ^ 15 = 32768 := by norm_num
    rw [h15, key_eq, scryptKey_fixed]
    rfl
  · intro other hsame
    rw [key_eq, key_eq] at hsame
    have hd : derivedKey c other = derivedKey c passphrase := by
      injection hsame
    constructor
    · intro env fs path
      cases hopen : osOpen env fs path with
      | error e => simp [Read, hopen]
      | ok file =>
        rw [Read_of_open c env fs path other file hopen,
          Read_of_open c env fs path passphrase file hopen, hd]
    · intro env fs path contents
      rw [Write_eq, Write_eq, hd]

/-- Claim C9, as stated, fails: a failure of `f.Chmod` is a file system failure
during `Write`, its result is discarded, and `Write` returns a nil error. -/
theorem chmod_failure_not_reported :
    fileChmod chmodFailing "keychain"
        = some ⟨"chmod keychain: operation not permitted"⟩
      ∧ ∃ fs', Write demoCrypto chmodFailing (keychainOnly [1, 2, 3]) "keychain" passA hi
          = .ret (none, fs') :=
  ⟨by decide, _, rfl⟩

/-- Claim C9, amended: when the random source delivers the nonce and the
contents are within the size limit of `Seal`, a failed open makes `Write`
return `opening keychain: open <path>: <cause>`, a failed write
`adding key: write <path>: <cause>` and a failed close
`adding key: close <path>: <cause>`; these three errors are pairwise different
whatever the causes, and when open, write and close succeed `Write` returns a
nil error, also when `f.Chmod` failed. -/
theorem Write_error_phases (c : Crypto) (env : Env) (fs : FS) (path : String)
    (passphrase contents : List Byte)
    (hrand : env.randErr = none)
    (hsize : contents.length ≤ (2 ^ 32 - 2) * 16) :
    (∀ cause, env.openErr = some cause →
        ∃ fs', Write c env fs path passphrase contents
          = .ret (some (errorf "opening keychain" (pathError "open" path cause)), fs'))
      ∧ (env.openErr = none → ∀ n cause, env.writeErr = some (n, cause) →
        ∃ fs', Write c env fs path passphrase contents
          = .ret (some (errorf "adding key" (pathError "write" path cause)), fs'))
      ∧ (env.openErr = none → env.writeErr = none → ∀ cause, env.closeErr = some cause →
        ∃ fs', Write c env fs path passphrase contents
          = .ret (some (errorf "adding key" (pathError "close" path cause)), fs'))
      ∧ (env.openErr = none → env.writeErr = none → env.closeErr = none →
        ∃ fs', Write c env fs path passphrase contents = .ret (none, fs'))
      ∧ ∀ e1 e2 e3 : GoError,
          errorf "opening keychain" (pathError "open" path e1)
              ≠ errorf "adding key" (pathError "write" path e2)
            ∧ errorf "opening keychain" (pathError "open" path e1)
              ≠ errorf "adding key" (pathError "close" path e3)
            ∧ errorf "adding key" (pathError "write" path e2)
              ≠ errorf "adding key" (pathError "close" path e3) := by
  have hbig : ¬ contents.length > (2 ^ 32 - 2) * 16 := by omega
  refine ⟨?_, ?_, ?_, ?_, ?_⟩
  · intro cause ho
    rw [Write_eq]
    simp only [hrand, if_neg hbig, ho]
    exact ⟨_, rfl⟩
  · intro ho n cause hw
    rw [Write_eq]
    simp only [hrand, if_neg hbig, ho, hw]
    exact ⟨_, rfl⟩
  · intro ho hw cause hc
    rw [Write_eq]
    simp only [hrand, if_neg hbig, ho, hw, hc]
    exact ⟨_, rfl⟩
  · intro ho hw hc
    rw [Write_eq]
    simp only [hrand, if_neg hbig, ho, hw, hc]
    exact ⟨_, rfl⟩
  · intro e1 e2 e3
    exact ⟨errorf_open_ne _ _, errorf_open_ne _ _, errorf_write_ne_close path e2 e3⟩

/-- The amended claim C9 at a write that fails after 5 bytes for lack of space:
`Write` returns `adding key: write keychain: no space left on device`. -/
theorem Write_error_phases_witness :
    ∃ fs', Write demoCrypto writeFailing FS.empty "keychain" passA hi
      = .ret (some ⟨"adding key: write keychain: no space left on device"⟩, fs') :=
  (Write_error_phases demoCrypto writeFailing FS.empty "keychain" passA hi rfl
    (by decide)).2.1 rfl 5 ⟨"no space left on device"⟩ rfl

/-- Claim C10: if the record `Write` appends to an absent or empty file (the
12-byte nonce followed by the sealed contents) is a single scanner line, that
is, it holds no line feed, does not end in a carriage return and is shorter
than the 64 KiB buffer limit, and if `Open` inverts `Seal`, then `Write`
succeeds and `Read` with the same passphrase returns the contents followed by
one line feed, with a nil error. -/
theorem conditional_round_trip (c : Crypto) (rand rand' : Nat → Byte) (fs : FS)
    (path : String) (passphrase contents k : List Byte)
    (hinv : OpenInvertsSeal c)
    (hk : key c passphrase = .ok k)
    (hfile : fs path = none ∨ fs path = some [])
    (hline : SingleLine (record c k (freshNonce rand) contents)) :
    ∃ fs', Write c (Env.quiet rand) fs path passphrase contents = .ret (none, fs')
      ∧ Read c (Env.quiet rand') fs' path passphrase = .ret (some (contents ++ [LF]), none) := by
  rw [(key_ok_iff c passphrase k).mp hk] at hline
  have hn := freshNonce_length rand
  have hsmall := contents_small c _ (freshNonce rand) contents 0 hn
    (by simpa using hline.2.2)
  refine ⟨_, Write_quiet c rand fs path passphrase contents hsmall, ?_⟩
  rw [contents_of_absent_or_empty fs path hfile, List.nil_append]
  have hline2 : SingleLine
      (record c (derivedKey c passphrase) (freshNonce rand) contents ++ []) := by
    rw [List.append_nil]
    exact hline
  rw [Read_one_record c (Env.quiet rand') _ path passphrase passphrase (freshNonce rand)
      contents [] hn (by rw [List.append_nil]; exact osOpen_put rand' fs path _)
      (fileReadErr_quiet rand' path) hline2,
    List.append_nil, hinv]

/-- The claim C10 theorem at passphrase `a`, contents `hi` and the nonce
`ABCDEFGHIJKL`: the record is a single line and `Read` returns `hi` and a
line feed. -/
theorem conditional_round_trip_witness :
    SingleLine (record demoCrypto (derivedKey demoCrypto passA) (freshNonce demoRand) hi)
      ∧ ∃ fs', Write demoCrypto (Env.quiet demoRand) FS.empty "keychain" passA hi
            = .ret (none, fs')
          ∧ Read demoCrypto (Env.quiet demoRand) fs' "keychain" passA
            = .ret (some [104, 105, 10], none) :=
  ⟨by decide,
    conditional_round_trip demoCrypto demoRand demoRand FS.empty "keychain" passA hi
      (derivedKey demoCrypto passA) demoCrypto_openInvertsSeal (by decide) (Or.inl rfl)
      (by decide)⟩

end Cryptfile
